import Mathlib

/-!
Verification of the Priam corporate-network mapper.

The Python sources are shallowly embedded:
* `src/app.py` — `extract_officer_id`, `map_corporate_network` and the
  sort used at `create_excel` / `sorted_conn`;
* `src/subsidiary_mapper.py` — `categorize_entities`.

The registry (Companies House HTTP API) is modelled as explicit inputs:
the officers list returned for the seed company, and a function from
officer id to the appointments list that the appointments endpoint
returns.  All Python `dict.get(k, default)` accesses are modelled by
`Option` fields with the same defaults applied at the same places.
-/

namespace Priam

/-! ### Python string primitives -/

/-- Python truthiness of an optional string: `None` and `""` are falsy. -/
def pyTruthy : Option String → Bool
  | none => false
  | some s => s ≠ ""

/-- Boolean list-prefix test (used to implement the substring test). -/
def isPrefixB : List Char → List Char → Bool
  | [], _ => true
  | _ :: _, [] => false
  | a :: as, b :: bs => a = b && isPrefixB as bs

/-- Boolean list-infix test. -/
def isSubB (needle : List Char) : List Char → Bool
  | [] => needle.isEmpty
  | c :: rest => isPrefixB needle (c :: rest) || isSubB needle rest

/-- Python `needle in haystack` substring test on strings. -/
def pyIn (needle haystack : String) : Bool :=
  isSubB needle.toList haystack.toList

/-- Python `s.lower()` (ASCII case folding, as used by the sources). -/
def pyLower (s : String) : String :=
  ⟨s.toList.map Char.toLower⟩

/-- Split a character list at every character satisfying `p`,
keeping empty groups (the behaviour of Python `str.split(sep)`). -/
def splitPred (p : Char → Bool) : List Char → List (List Char)
  | [] => [[]]
  | c :: rest =>
    match splitPred p rest with
    | [] => if p c then [[], []] else [[c]]
    | g :: gs => if p c then [] :: g :: gs else (c :: g) :: gs

/-- Python `s.split("/")`-style split on a single character. -/
def pySplitChar (c : Char) (s : String) : List String :=
  (splitPred (· = c) s.toList).map fun l => ⟨l⟩

/-- Python `s.split()` (no argument): split on whitespace, dropping
empty groups. -/
def pySplitWs (s : String) : List String :=
  ((splitPred Char.isWhitespace s.toList).map fun l => (⟨l⟩ : String)).filter (· ≠ "")

/-- Python `s.strip("/")`: remove leading and trailing `/` characters. -/
def pyStripSlash (s : String) : String :=
  ⟨((s.toList.dropWhile (· = '/')).reverse.dropWhile (· = '/')).reverse⟩

/-! ### `src/app.py`: records of the registry responses -/

/-- One item of the registry's officers endpoint, restricted to the
fields `map_corporate_network` reads.  `appointments_link` is the value
of `links.officer.appointments` (`""` when the nested lookup misses, as
with Python's chained `.get(..., {}) .get("appointments", "")`). -/
structure OfficerRec where
  name : Option String
  officer_role : Option String
  appointed_on : Option String
  resigned_on : Option String
  appointments_link : Option String
deriving DecidableEq

/-- One item of the registry's officer-appointments endpoint, restricted
to the fields read by `map_corporate_network`. -/
structure ApptRec where
  company_number : Option String
  company_name : Option String
  officer_role : Option String
  company_status : Option String
deriving DecidableEq

/-- An element of `officer_info["other_companies"]`. -/
structure OtherCompany where
  company_number : String
  company_name : String
  role : String
  status : String
deriving DecidableEq

/-- The company snapshot stored in `connected_companies[n]["company"]`. -/
structure CompanySnap where
  number : String
  name : String
  status : String
deriving DecidableEq

/-- An element of `connected_companies[n]["shared_officers"]`. -/
structure SharedOfficer where
  name : String
  role_at_source : String
  role_at_connected : String
deriving DecidableEq

/-- The per-connected-company aggregate. -/
structure ConnEntry where
  company : Option CompanySnap
  shared_officers : List SharedOfficer
deriving DecidableEq

/-- One element of the returned `officer_data` list. -/
structure OfficerInfo where
  name : String
  role : String
  appointed : String
  resigned : Option String
  officer_id : Option String
  other_companies : List OtherCompany
deriving DecidableEq

/-- `connected_companies`, an insertion-ordered dictionary, modelled as
an association list (Python dicts preserve insertion order). -/
abbrev ConnMap := List (String × ConnEntry)

/-! ### `src/app.py`: the functions -/

/-- `extract_officer_id` (app.py:108-115): strip slashes, split on `/`,
return the second component when the first is `"officers"`. -/
def extract_officer_id (officer_link : String) : Option String :=
  if officer_link ≠ "" then
    match pySplitChar '/' (pyStripSlash officer_link) with
    | p₀ :: p₁ :: _ => if p₀ = "officers" then some p₁ else none
    | _ => none
  else none

/-- The mutation `connected_companies[key]["company"] = snap;
connected_companies[key]["shared_officers"].append(so)` on the
`defaultdict` (app.py:184-194): update in place if the key exists,
otherwise insert a fresh entry at the end. -/
def updateConn (m : ConnMap) (key : String) (snap : CompanySnap) (so : SharedOfficer) :
    ConnMap :=
  match m with
  | [] => [(key, ⟨some snap, [so]⟩)]
  | (k, e) :: rest =>
    if k = key then (k, ⟨some snap, e.shared_officers ++ [so]⟩) :: rest
    else (k, e) :: updateConn rest key snap so

/-- The inner appointment loop of `map_corporate_network`
(app.py:166-194), threading `officer_info["other_companies"]` and
`connected_companies`. -/
def processAppts (company_number officer_name officer_role : String) :
    List ApptRec → List OtherCompany → ConnMap → List OtherCompany × ConnMap
  | [], oc, conn => (oc, conn)
  | a :: rest, oc, conn =>
    let num := a.company_number.getD ""
    let cname := a.company_name.getD "Unknown"
    let arole := a.officer_role.getD "Unknown"
    let status := a.company_status.getD "unknown"
    if num = company_number then
      processAppts company_number officer_name officer_role rest oc conn
    else
      processAppts company_number officer_name officer_role rest
        (oc ++ [⟨num, cname, arole, status⟩])
        (if num ≠ "" then
          updateConn conn num ⟨num, cname, status⟩ ⟨officer_name, officer_role, arole⟩
        else conn)

/-- The `officer_info` dictionary built at app.py:152-159, with its
`other_companies` field as accumulated by the loop. -/
def mkOfficerInfo (o : OfficerRec) (ocs : List OtherCompany) : OfficerInfo :=
  ⟨o.name.getD "Unknown", o.officer_role.getD "Unknown", o.appointed_on.getD "N/A",
   o.resigned_on, extract_officer_id (o.appointments_link.getD ""), ocs⟩

/-- One iteration of the officer loop (app.py:135-196): extract the id,
fetch appointments when it is truthy, and process them. -/
def stepOfficer (company_number : String) (getAppts : String → List ApptRec)
    (o : OfficerRec) (conn : ConnMap) : OfficerInfo × ConnMap :=
  let oid := extract_officer_id (o.appointments_link.getD "")
  if pyTruthy oid then
    let r := processAppts company_number (o.name.getD "Unknown")
      (o.officer_role.getD "Unknown") (getAppts (oid.getD "")) [] conn
    (mkOfficerInfo o r.1, r.2)
  else
    (mkOfficerInfo o [], conn)

/-- The officer loop of `map_corporate_network`, producing the
`officer_data` list and the final `connected_companies`. -/
def processOfficers (company_number : String) (getAppts : String → List ApptRec) :
    List OfficerRec → ConnMap → List OfficerInfo × ConnMap
  | [], conn => ([], conn)
  | o :: rest, conn =>
    let r := stepOfficer company_number getAppts o conn
    let rs := processOfficers company_number getAppts rest r.2
    (r.1 :: rs.1, rs.2)

/-- `map_corporate_network` (app.py:118-198).  The registry is supplied
as the officers list for the seed company and the appointments endpoint
`getAppts`.  Returns `none` for Python's `(None, None)` sentinel.  (The
`company_name` and `progress_callback` parameters of the source do not
influence the returned data and are omitted.) -/
def map_corporate_network (company_number : String) (officers : List OfficerRec)
    (getAppts : String → List ApptRec) : Option (List OfficerInfo × ConnMap) :=
  if officers = [] then none
  else some (processOfficers company_number getAppts officers [])

/-- The sort key of app.py:264 and app.py:515:
`len(x[1]["shared_officers"])`. -/
def connKey (p : String × ConnEntry) : Nat :=
  p.2.shared_officers.length

/-- Stable insertion into a descending-sorted list: `x` goes after every
earlier element with a strictly larger key and before the rest. -/
def insertDesc (k : α → Nat) (x : α) : List α → List α
  | [] => [x]
  | y :: ys => if k x < k y then y :: insertDesc k x ys else x :: y :: ys

/-- Stable sort, descending by key — the semantics of Python's
`sorted(..., key=..., reverse=True)` (Timsort is stable, and
`reverse=True` reverses the comparison, not the result). -/
def sortDesc (k : α → Nat) : List α → List α
  | [] => []
  | x :: xs => insertDesc k x (sortDesc k xs)

/-- `sorted_conn` (app.py:513-517, same expression at app.py:262-266):
connected companies sorted by shared-officer count descending. -/
def sorted_conn (conn : ConnMap) : ConnMap :=
  sortDesc connKey conn

/-! ### Observation helpers on the connections map -/

/-- Dictionary lookup in the modelled `connected_companies`. -/
def lookupConn (c : String) : ConnMap → Option ConnEntry
  | [] => none
  | (k, e) :: rest => if k = c then some e else lookupConn c rest

/-- `len(aggregate[c].shared_officers)`, `0` when `c` is not a key. -/
def lenShared (c : String) (m : ConnMap) : Nat :=
  ((lookupConn c m).map fun e => e.shared_officers.length).getD 0

/-- `aggregate[c].company`, `none` when `c` is not a key. -/
def companyOf (c : String) (m : ConnMap) : Option CompanySnap :=
  (lookupConn c m).bind fun e => e.company

/-! ### Measures of the registry response, used to state the claims -/

/-- Number of appointments of one officer whose (defaulted) company
number is `c`; `0` for officers whose id is not truthy (their
appointments are never fetched). -/
def officerApptCount (getAppts : String → List ApptRec) (o : OfficerRec) (c : String) :
    Nat :=
  let oid := extract_officer_id (o.appointments_link.getD "")
  if pyTruthy oid then
    ((getAppts (oid.getD "")).filter fun a => a.company_number.getD "" = c).length
  else 0

/-- Total number of (officer, appointment) pairs whose appointment names
company `c`, across the seed company's officers. -/
def countRefs (getAppts : String → List ApptRec) : List OfficerRec → String → Nat
  | [], _ => 0
  | o :: rest, c => officerApptCount getAppts o c + countRefs getAppts rest c

/-- Whether an officer's fetched appointment list mentions company `c`
at least once. -/
def officerRefs (getAppts : String → List ApptRec) (o : OfficerRec) (c : String) : Bool :=
  pyTruthy (extract_officer_id (o.appointments_link.getD "")) &&
    (getAppts ((extract_officer_id (o.appointments_link.getD "")).getD "")).any
      fun a => a.company_number.getD "" = c

/-- Number of officer records whose fetched appointment list mentions
company `c` at least once. -/
def countOfficersFor (getAppts : String → List ApptRec) (offs : List OfficerRec)
    (c : String) : Nat :=
  (offs.filter fun o => officerRefs getAppts o c).length

/-- The company snapshot an appointment record writes (app.py:185-189). -/
def apptSnap (a : ApptRec) : CompanySnap :=
  ⟨a.company_number.getD "", a.company_name.getD "Unknown", a.company_status.getD "unknown"⟩

/-- The snapshots of one officer's appointments naming company `c`, in
processing order. -/
def officerSnaps (getAppts : String → List ApptRec) (o : OfficerRec) (c : String) :
    List CompanySnap :=
  let oid := extract_officer_id (o.appointments_link.getD "")
  if pyTruthy oid then
    ((getAppts (oid.getD "")).filter fun a => a.company_number.getD "" = c).map apptSnap
  else []

/-- All snapshots written for company `c` during a run, in processing
order (officers in registry order, appointments in endpoint order). -/
def snapsFor (getAppts : String → List ApptRec) : List OfficerRec → String → List CompanySnap
  | [], _ => []
  | o :: rest, c => officerSnaps getAppts o c ++ snapsFor getAppts rest c

/-! ### `src/subsidiary_mapper.py`: `categorize_entities` -/

/-- A candidate entity, restricted to the fields `categorize_entities`
reads (`entity.get('name', '')`, `entity.get('company_type', '')`). -/
structure Entity where
  name : Option String
  company_type : Option String
deriving DecidableEq

/-- The four category lists built by `categorize_entities`. -/
structure Categories where
  parent : List Entity
  likely_subsidiaries : List Entity
  related : List Entity
  other : List Entity
deriving DecidableEq

/-- Which of the four categories an entity goes to. -/
inductive Bucket where
  | parent
  | likely_subsidiaries
  | related
  | other
deriving DecidableEq

/-- The first condition of the `if`/`elif` chain
(subsidiary_mapper.py:191-194): exact name match, or seed-name substring
with a holding-style company type. -/
def isParentCond (parent_name_lower : String) (e : Entity) : Bool :=
  let name := pyLower (e.name.getD "")
  name == parent_name_lower ||
    (pyIn parent_name_lower name &&
      (["plc", "public limited company", "holding company"] : List String).contains
        (pyLower (e.company_type.getD "")))

/-- The `elif` condition at subsidiary_mapper.py:200:
`any(word in name for word in parent_name_lower.split()[:2] if len(word) > 3)`. -/
def relatedTokenCond (parent_name_lower : String) (e : Entity) : Bool :=
  let name := pyLower (e.name.getD "")
  (((pySplitWs parent_name_lower).take 2).filter fun w => decide (3 < w.length)).any
    fun w => pyIn w name

/-- The `if`/`elif`/`else` chain of `categorize_entities`
(subsidiary_mapper.py:187-203) deciding one entity's category. -/
def entityBucket (parent_name_lower : String) (e : Entity) : Bucket :=
  if isParentCond parent_name_lower e then .parent
  else if pyIn parent_name_lower (pyLower (e.name.getD "")) then .likely_subsidiaries
  else if relatedTokenCond parent_name_lower e then .related
  else .other

/-- `categories[...].append(entity)`. -/
def pushBucket (cats : Categories) (b : Bucket) (e : Entity) : Categories :=
  match b with
  | .parent => { cats with parent := cats.parent ++ [e] }
  | .likely_subsidiaries =>
    { cats with likely_subsidiaries := cats.likely_subsidiaries ++ [e] }
  | .related => { cats with related := cats.related ++ [e] }
  | .other => { cats with other := cats.other ++ [e] }

/-- `categorize_entities` (subsidiary_mapper.py:176-205). -/
def categorize_entities (entities : List Entity) (parent_name : String) : Categories :=
  let pnl := pyLower parent_name
  entities.foldl (fun cats e => pushBucket cats (entityBucket pnl e) e) ⟨[], [], [], []⟩

/-- Modelled from the spec: the classifier described by §4.3 of the
specification (claim C2), which is not the algorithm implemented by
`categorize_entities` in the source.  Stopword and short-token stripping
produce the significant tokens of the seed name. -/
def specSignificantTokens (seed_name : String) : List String :=
  (pySplitWs (pyLower seed_name)).filter fun w =>
    decide (w ∉ (["limited", "ltd", "plc", "holdings", "group", "the", "and", "&",
      "inc", "corp", "uk"] : List String)) && decide (2 < w.length)

/-- Modelled from the spec: classification of one candidate per the
spec's words — `likely_subsidiary` if the full lowercased seed name is a
substring of the candidate's lowercased name or the first two
significant tokens are both present; else `related` if the first
significant token is present; else `other`. -/
def specClassify (seed_name : String) (e : Entity) : Bucket :=
  let name := pyLower (e.name.getD "")
  let sig := specSignificantTokens seed_name
  let firstTwo : Bool :=
    match sig with
    | t₁ :: t₂ :: _ => pyIn t₁ name && pyIn t₂ name
    | _ => false
  let firstOne : Bool :=
    match sig with
    | t₁ :: _ => pyIn t₁ name
    | _ => false
  if pyIn (pyLower seed_name) name || firstTwo then .likely_subsidiaries
  else if firstOne then .related
  else .other

/-- First-`some` choice on options. -/
def orElseO (a b : Option α) : Option α :=
  match a with
  | some x => some x
  | none => b

/-- Last element of a list, `none` for the empty list. -/
def lastOpt : List α → Option α
  | [] => none
  | a :: l => some ((lastOpt l).getD a)

/-- The list a `Bucket` names inside a `Categories` value. -/
def bucketList (cats : Categories) : Bucket → List Entity
  | .parent => cats.parent
  | .likely_subsidiaries => cats.likely_subsidiaries
  | .related => cats.related
  | .other => cats.other

/-- Concatenation of the four category lists. -/
def concatCats (cats : Categories) : List Entity :=
  cats.parent ++ cats.likely_subsidiaries ++ cats.related ++ cats.other

/-! ### Concrete registry responses used to instantiate the theorems -/

/-- A seed-company officer with a well-formed appointments link. -/
def sampleOfficer : OfficerRec :=
  ⟨some "Jane Doe", some "director", some "2020-01-01", none,
   some "/officers/abc/appointments"⟩

/-- An appointments endpoint answering for officer `abc` with one
appointment at company `X` and one back at the seed company `C`. -/
def sampleAppts : String → List ApptRec := fun oid =>
  if oid = "abc" then
    [⟨some "X", some "XCo", some "director", some "active"⟩,
     ⟨some "C", some "CCo", some "secretary", some "active"⟩]
  else []

/-- The officer list `map_corporate_network "C" [sampleOfficer]
sampleAppts` produces. -/
def sampleOL : List OfficerInfo :=
  [⟨"Jane Doe", "director", "2020-01-01", none, some "abc",
    [⟨"X", "XCo", "director", "active"⟩]⟩]

/-- The connections map the same run produces. -/
def sampleConn : ConnMap :=
  [("X", ⟨some ⟨"X", "XCo", "active"⟩, [⟨"Jane Doe", "director", "director"⟩]⟩)]

/-- An officer whose expansion is empty: its id is not truthy (missing
or unparsable or empty link), or its appointments fetch returns `[]`. -/
def noFanout (ga : String → List ApptRec) (o : OfficerRec) : Prop :=
  pyTruthy (extract_officer_id (o.appointments_link.getD "")) = false ∨
  ga ((extract_officer_id (o.appointments_link.getD "")).getD "") = []

/-- An officer record with no appointments link at all. -/
def sampleBadOfficer : OfficerRec := ⟨some "No Link", some "director", none, none, none⟩

/-- An appointments endpoint returning the same appointment at company
`X` twice for any officer (as with an appointment duplicated across
registry pages). -/
def dupAppts : String → List ApptRec := fun _ =>
  [⟨some "X", some "XCo", some "director", some "active"⟩,
   ⟨some "X", some "XCo", some "director", some "active"⟩]

/-- An appointments endpoint whose single appointment has no company
number field. -/
def emptyNumAppts : String → List ApptRec := fun _ => [⟨none, none, none, none⟩]

/-- An officer record with a parseable appointments link. -/
def sampleLinkedOfficer : OfficerRec :=
  ⟨none, none, none, none, some "officers/a/appointments"⟩

end Priam

namespace Priam

theorem orElseO_none (b : Option α) : orElseO none b = b := rfl

theorem orElseO_some (x : α) (b : Option α) : orElseO (some x) b = some x := rfl

theorem orElseO_assoc (a b c : Option α) :
    orElseO a (orElseO b c) = orElseO (orElseO a b) c := by
  cases a <;> rfl

theorem lastOpt_cons_orElse (x : α) (l : List α) (z : Option α) :
    orElseO (lastOpt (x :: l)) z = orElseO (lastOpt l) (some x) := by
  cases h : lastOpt l <;> simp [lastOpt, h, orElseO]

theorem lastOpt_append (l₁ l₂ : List α) :
    lastOpt (l₁ ++ l₂) = orElseO (lastOpt l₂) (lastOpt l₁) := by
  induction l₁ with
  | nil => cases h : lastOpt l₂ <;> simp [orElseO, h, lastOpt]
  | cons a l ih =>
    simp only [List.cons_append, lastOpt, ih]
    cases h : lastOpt l₂ <;> cases h' : lastOpt l <;> simp [orElseO, h, h', lastOpt, ih]

theorem lastOpt_map (f : α → β) (l : List α) :
    lastOpt (l.map f) = (lastOpt l).map f := by
  induction l with
  | nil => rfl
  | cons a l ih =>
    cases h : lastOpt l <;> simp [lastOpt, List.map_cons, ih, h]

theorem lookupConn_updateConn (m : ConnMap) (key c : String) (snap : CompanySnap)
    (so : SharedOfficer) :
    lookupConn c (updateConn m key snap so) =
      if key = c then
        some ⟨some snap, ((lookupConn c m).map fun e => e.shared_officers).getD [] ++ [so]⟩
      else lookupConn c m := by
  induction m with
  | nil => by_cases h : key = c <;> simp [updateConn, lookupConn, h]
  | cons p rest ih =>
    obtain ⟨k, e⟩ := p
    by_cases hk : k = key
    · subst hk
      by_cases hc : k = c <;> simp [updateConn, lookupConn, hc]
    · by_cases hc : k = c
      · subst hc
        have hkc : ¬ key = k := fun h => hk h.symm
        simp [updateConn, lookupConn, hk, hkc]
      · simp [updateConn, lookupConn, hk, hc, ih]

theorem lenShared_updateConn (m : ConnMap) (key c : String) (snap : CompanySnap)
    (so : SharedOfficer) :
    lenShared c (updateConn m key snap so) =
      if key = c then lenShared c m + 1 else lenShared c m := by
  simp only [lenShared, lookupConn_updateConn]
  by_cases h : key = c
  · cases hm : lookupConn c m <;> simp [h, hm]
  · simp [h]

theorem companyOf_updateConn (m : ConnMap) (key c : String) (snap : CompanySnap)
    (so : SharedOfficer) :
    companyOf c (updateConn m key snap so) =
      if key = c then some snap else companyOf c m := by
  simp only [companyOf, lookupConn_updateConn]
  by_cases h : key = c <;> simp [h]

theorem isSome_lookupConn_updateConn (m : ConnMap) (key c : String) (snap : CompanySnap)
    (so : SharedOfficer) :
    (lookupConn c (updateConn m key snap so)).isSome = true ↔
      key = c ∨ (lookupConn c m).isSome = true := by
  simp only [lookupConn_updateConn]
  by_cases h : key = c <;> simp [h]

theorem lookupConn_isSome_of_mem {p : String × ConnEntry} {m : ConnMap} (h : p ∈ m) :
    (lookupConn p.1 m).isSome = true := by
  induction m with
  | nil => cases h
  | cons q rest ih =>
    obtain ⟨k, e⟩ := q
    rcases List.mem_cons.mp h with h' | h'
    · subst h'; simp [lookupConn]
    · by_cases hk : k = p.1 <;> simp [lookupConn, hk, ih h']

end Priam
namespace Priam

theorem lenShared_processAppts (cn on_ or_ c : String) (hcn : c ≠ cn) (hne : c ≠ "")
    (appts : List ApptRec) :
    ∀ (oc : List OtherCompany) (conn : ConnMap),
      lenShared c (processAppts cn on_ or_ appts oc conn).2 =
        lenShared c conn + (appts.filter fun a => a.company_number.getD "" = c).length := by
  induction appts with
  | nil => intro oc conn; simp [processAppts]
  | cons a rest ih =>
    intro oc conn
    simp only [processAppts]
    by_cases h1 : a.company_number.getD "" = cn
    · have hac : ¬ (a.company_number.getD "" = c) := by
        rw [h1]; exact fun hh => hcn hh.symm
      rw [if_pos h1, ih]
      simp [List.filter_cons, hac]
    · rw [if_neg h1, ih]
      by_cases h2 : a.company_number.getD "" = c
      · have hns : a.company_number.getD "" ≠ "" := by rw [h2]; exact hne
        rw [if_pos hns, lenShared_updateConn]
        simp [List.filter_cons, h2]
        omega
      · by_cases h3 : a.company_number.getD "" = ""
        · simp [h3, List.filter_cons, h2, Ne.symm hne]
        · rw [if_pos h3, lenShared_updateConn]
          simp [List.filter_cons, h2, h3]

end Priam
namespace Priam

theorem companyOf_processAppts (cn on_ or_ c : String) (hcn : c ≠ cn) (hne : c ≠ "")
    (appts : List ApptRec) :
    ∀ (oc : List OtherCompany) (conn : ConnMap),
      companyOf c (processAppts cn on_ or_ appts oc conn).2 =
        orElseO (lastOpt ((appts.filter fun a => a.company_number.getD "" = c).map apptSnap))
          (companyOf c conn) := by
  induction appts with
  | nil => intro oc conn; simp [processAppts, lastOpt, orElseO]
  | cons a rest ih =>
    intro oc conn
    simp only [processAppts]
    by_cases h1 : a.company_number.getD "" = cn
    · have hac : ¬ (a.company_number.getD "" = c) := by
        rw [h1]; exact fun hh => hcn hh.symm
      rw [if_pos h1, ih]
      simp [List.filter_cons, hac]
    · rw [if_neg h1, ih]
      by_cases h2 : a.company_number.getD "" = c
      · have hns : a.company_number.getD "" ≠ "" := by rw [h2]; exact hne
        rw [if_pos hns, companyOf_updateConn, if_pos h2]
        have hf : (a :: rest).filter (fun a => a.company_number.getD "" = c) =
            a :: rest.filter (fun a => a.company_number.getD "" = c) := by
          simp [List.filter_cons, h2]
        rw [hf, List.map_cons, lastOpt_cons_orElse]
        simp [apptSnap, h2]
      · by_cases h3 : a.company_number.getD "" = ""
        · simp [h3, List.filter_cons, Ne.symm hne]
        · rw [if_pos h3, companyOf_updateConn, if_neg h2]
          simp [List.filter_cons, h2]

theorem isSome_processAppts (cn on_ or_ c : String) (appts : List ApptRec) :
    ∀ (oc : List OtherCompany) (conn : ConnMap),
      (lookupConn c (processAppts cn on_ or_ appts oc conn).2).isSome = true →
      (lookupConn c conn).isSome = true ∨ (c ≠ cn ∧ c ≠ "") := by
  induction appts with
  | nil => intro oc conn h; exact Or.inl (by simpa [processAppts] using h)
  | cons a rest ih =>
    intro oc conn h
    simp only [processAppts] at h
    by_cases h1 : a.company_number.getD "" = cn
    · rw [if_pos h1] at h
      exact ih _ _ h
    · rw [if_neg h1] at h
      by_cases h3 : a.company_number.getD "" = ""
      · rw [if_neg (by simpa using h3)] at h
        exact ih _ _ h
      · rw [if_pos h3] at h
        rcases ih _ _ h with h' | h'
        · rcases (isSome_lookupConn_updateConn _ _ _ _ _).mp h' with rfl | h''
          · exact Or.inr ⟨h1, h3⟩
          · exact Or.inl h''
        · exact Or.inr h'

end Priam
namespace Priam

theorem lenShared_stepOfficer (cn : String) (ga : String → List ApptRec) (c : String)
    (hcn : c ≠ cn) (hne : c ≠ "") (o : OfficerRec) (conn : ConnMap) :
    lenShared c (stepOfficer cn ga o conn).2 = lenShared c conn + officerApptCount ga o c := by
  simp only [stepOfficer, officerApptCount]
  by_cases h : pyTruthy (extract_officer_id (o.appointments_link.getD "")) = true
  · simp [h, lenShared_processAppts cn _ _ c hcn hne]
  · simp [h]

theorem companyOf_stepOfficer (cn : String) (ga : String → List ApptRec) (c : String)
    (hcn : c ≠ cn) (hne : c ≠ "") (o : OfficerRec) (conn : ConnMap) :
    companyOf c (stepOfficer cn ga o conn).2 =
      orElseO (lastOpt (officerSnaps ga o c)) (companyOf c conn) := by
  simp only [stepOfficer, officerSnaps]
  by_cases h : pyTruthy (extract_officer_id (o.appointments_link.getD "")) = true
  · simp [h, companyOf_processAppts cn _ _ c hcn hne]
  · simp [h, lastOpt, orElseO]

theorem isSome_stepOfficer (cn : String) (ga : String → List ApptRec) (c : String)
    (o : OfficerRec) (conn : ConnMap)
    (h : (lookupConn c (stepOfficer cn ga o conn).2).isSome = true) :
    (lookupConn c conn).isSome = true ∨ (c ≠ cn ∧ c ≠ "") := by
  simp only [stepOfficer] at h
  by_cases ht : pyTruthy (extract_officer_id (o.appointments_link.getD "")) = true
  · rw [if_pos ht] at h
    exact isSome_processAppts cn _ _ c _ _ _ h
  · rw [if_neg ht] at h
    exact Or.inl h

theorem lenShared_processOfficers (cn : String) (ga : String → List ApptRec) (c : String)
    (hcn : c ≠ cn) (hne : c ≠ "") (offs : List OfficerRec) :
    ∀ conn : ConnMap,
      lenShared c (processOfficers cn ga offs conn).2 =
        lenShared c conn + countRefs ga offs c := by
  induction offs with
  | nil => intro conn; simp [processOfficers, countRefs]
  | cons o rest ih =>
    intro conn
    simp only [processOfficers, countRefs]
    rw [ih, lenShared_stepOfficer cn ga c hcn hne]
    omega

theorem companyOf_processOfficers (cn : String) (ga : String → List ApptRec) (c : String)
    (hcn : c ≠ cn) (hne : c ≠ "") (offs : List OfficerRec) :
    ∀ conn : ConnMap,
      companyOf c (processOfficers cn ga offs conn).2 =
        orElseO (lastOpt (snapsFor ga offs c)) (companyOf c conn) := by
  induction offs with
  | nil => intro conn; simp [processOfficers, snapsFor, lastOpt, orElseO]
  | cons o rest ih =>
    intro conn
    simp only [processOfficers, snapsFor]
    rw [ih, companyOf_stepOfficer cn ga c hcn hne, lastOpt_append, ← orElseO_assoc]

theorem isSome_processOfficers (cn : String) (ga : String → List ApptRec) (c : String)
    (offs : List OfficerRec) :
    ∀ conn : ConnMap,
      (lookupConn c (processOfficers cn ga offs conn).2).isSome = true →
      (lookupConn c conn).isSome = true ∨ (c ≠ cn ∧ c ≠ "") := by
  induction offs with
  | nil => intro conn h; exact Or.inl (by simpa [processOfficers] using h)
  | cons o rest ih =>
    intro conn h
    simp only [processOfficers] at h
    rcases ih _ h with h' | h'
    · exact isSome_stepOfficer cn ga c o conn h'
    · exact Or.inr h'

theorem length_processOfficers (cn : String) (ga : String → List ApptRec)
    (offs : List OfficerRec) :
    ∀ conn : ConnMap, (processOfficers cn ga offs conn).1.length = offs.length := by
  induction offs with
  | nil => intro conn; simp [processOfficers]
  | cons o rest ih => intro conn; simp [processOfficers, ih]

theorem processOfficers_append (cn : String) (ga : String → List ApptRec)
    (l₁ l₂ : List OfficerRec) :
    ∀ conn : ConnMap,
      processOfficers cn ga (l₁ ++ l₂) conn =
        ((processOfficers cn ga l₁ conn).1 ++
          (processOfficers cn ga l₂ (processOfficers cn ga l₁ conn).2).1,
         (processOfficers cn ga l₂ (processOfficers cn ga l₁ conn).2).2) := by
  induction l₁ with
  | nil => intro conn; simp [processOfficers]
  | cons o rest ih =>
    intro conn
    simp only [List.cons_append, processOfficers, List.append_eq, ih]

theorem map_corporate_network_eq_some {cn : String} {offs : List OfficerRec}
    {ga : String → List ApptRec} {ol : List OfficerInfo} {conn : ConnMap} :
    map_corporate_network cn offs ga = some (ol, conn) ↔
      offs ≠ [] ∧ ol = (processOfficers cn ga offs []).1 ∧
        conn = (processOfficers cn ga offs []).2 := by
  constructor
  · intro he
    unfold map_corporate_network at he
    by_cases h : offs = []
    · rw [if_pos h] at he; cases he
    · rw [if_neg h] at he
      have hp := Option.some.inj he
      exact ⟨h, (congrArg Prod.fst hp).symm, (congrArg Prod.snd hp).symm⟩
  · rintro ⟨h, h1, h2⟩
    unfold map_corporate_network
    rw [if_neg h, h1, h2]

end Priam
namespace Priam

theorem mem_insertDesc (k : α → Nat) (x a : α) (l : List α) :
    a ∈ insertDesc k x l ↔ a = x ∨ a ∈ l := by
  induction l with
  | nil => simp [insertDesc]
  | cons y ys ih =>
    by_cases h : k x < k y
    · simp only [insertDesc, if_pos h, List.mem_cons, ih]
      tauto
    · simp only [insertDesc, if_neg h, List.mem_cons]

theorem pairwise_insertDesc (k : α → Nat) (x : α) (l : List α)
    (h : List.Pairwise (fun a b => k b ≤ k a) l) :
    List.Pairwise (fun a b => k b ≤ k a) (insertDesc k x l) := by
  induction l with
  | nil => simp [insertDesc]
  | cons y ys ih =>
    rcases List.pairwise_cons.mp h with ⟨hy, hys⟩
    by_cases hxy : k x < k y
    · simp only [insertDesc, if_pos hxy]
      refine List.pairwise_cons.mpr ⟨?_, ih hys⟩
      intro z hz
      rcases (mem_insertDesc k x z ys).mp hz with rfl | hz'
      · exact Nat.le_of_lt hxy
      · exact hy z hz'
    · simp only [insertDesc, if_neg hxy]
      refine List.pairwise_cons.mpr ⟨?_, h⟩
      intro z hz
      rcases List.mem_cons.mp hz with rfl | hz'
      · exact Nat.le_of_not_lt hxy
      · exact Nat.le_trans (hy z hz') (Nat.le_of_not_lt hxy)

theorem pairwise_sortDesc (k : α → Nat) (l : List α) :
    List.Pairwise (fun a b => k b ≤ k a) (sortDesc k l) := by
  induction l with
  | nil => simp [sortDesc]
  | cons x xs ih => exact pairwise_insertDesc k x _ ih

theorem filter_insertDesc (k : α → Nat) (x : α) (l : List α) (n : Nat) :
    (insertDesc k x l).filter (fun a => k a == n) =
      if k x = n then x :: l.filter (fun a => k a == n)
      else l.filter (fun a => k a == n) := by
  induction l with
  | nil => by_cases h : k x = n <;> simp [insertDesc, List.filter_cons, h]
  | cons y ys ih =>
    by_cases hxy : k x < k y
    · simp only [insertDesc, if_pos hxy, List.filter_cons, ih]
      by_cases hx : k x = n
      · have hy : ¬ (k y = n) := by omega
        simp [hx, hy]
      · simp [hx]
    · simp only [insertDesc, if_neg hxy, List.filter_cons]
      by_cases hx : k x = n <;> simp [hx]

theorem filter_sortDesc (k : α → Nat) (l : List α) (n : Nat) :
    (sortDesc k l).filter (fun a => k a == n) = l.filter (fun a => k a == n) := by
  induction l with
  | nil => simp [sortDesc]
  | cons x xs ih =>
    simp only [sortDesc, filter_insertDesc, List.filter_cons]
    by_cases hx : k x = n <;> simp [hx, ih]

end Priam
namespace Priam

theorem bucketList_pushBucket (cats : Categories) (b b' : Bucket) (e : Entity) :
    bucketList (pushBucket cats b' e) b =
      if b' = b then bucketList cats b ++ [e] else bucketList cats b := by
  cases b' <;> cases b <;> simp [pushBucket, bucketList]

theorem categorize_foldl_acc (pnl : String) (l : List Entity) :
    ∀ acc : Categories,
      List.foldl (fun cats e => pushBucket cats (entityBucket pnl e) e) acc l =
        ⟨acc.parent ++ (List.foldl (fun cats e => pushBucket cats (entityBucket pnl e) e)
            ⟨[], [], [], []⟩ l).parent,
         acc.likely_subsidiaries ++ (List.foldl
            (fun cats e => pushBucket cats (entityBucket pnl e) e)
            ⟨[], [], [], []⟩ l).likely_subsidiaries,
         acc.related ++ (List.foldl (fun cats e => pushBucket cats (entityBucket pnl e) e)
            ⟨[], [], [], []⟩ l).related,
         acc.other ++ (List.foldl (fun cats e => pushBucket cats (entityBucket pnl e) e)
            ⟨[], [], [], []⟩ l).other⟩ := by
  induction l with
  | nil => intro acc; simp [List.foldl]
  | cons e l ih =>
    intro acc
    simp only [List.foldl]
    rw [ih (pushBucket acc (entityBucket pnl e) e),
        ih (pushBucket ⟨[], [], [], []⟩ (entityBucket pnl e) e)]
    cases hb : entityBucket pnl e <;> simp [pushBucket]

theorem categorize_cons (pn : String) (e : Entity) (l : List Entity) (b : Bucket) :
    bucketList (categorize_entities (e :: l) pn) b =
      (if entityBucket (pyLower pn) e = b then [e] else []) ++
        bucketList (categorize_entities l pn) b := by
  unfold categorize_entities
  simp only [List.foldl]
  rw [categorize_foldl_acc (pyLower pn) l (pushBucket ⟨[], [], [], []⟩ (entityBucket (pyLower pn) e) e)]
  cases hb : entityBucket (pyLower pn) e <;> cases b <;>
    simp [pushBucket, bucketList, categorize_foldl_acc]

theorem mem_bucket_categorize (es : List Entity) (pn : String) (x : Entity) (b : Bucket) :
    x ∈ bucketList (categorize_entities es pn) b ↔
      x ∈ es ∧ entityBucket (pyLower pn) x = b := by
  induction es with
  | nil => cases b <;> simp [categorize_entities, bucketList]
  | cons e l ih =>
    rw [categorize_cons]
    by_cases hb : entityBucket (pyLower pn) e = b
    · rw [if_pos hb]
      simp only [List.singleton_append, List.mem_cons, ih]
      constructor
      · rintro (rfl | ⟨hx, hbx⟩)
        · exact ⟨Or.inl rfl, hb⟩
        · exact ⟨Or.inr hx, hbx⟩
      · rintro ⟨rfl | hx, hbx⟩
        · exact Or.inl rfl
        · exact Or.inr ⟨hx, hbx⟩
    · simp only [if_neg hb, List.nil_append, ih, List.mem_cons]
      constructor
      · rintro ⟨hx, hbx⟩
        exact ⟨Or.inr hx, hbx⟩
      · rintro ⟨rfl | hx, hbx⟩
        · exact absurd hbx hb
        · exact ⟨hx, hbx⟩

theorem perm_categorize (es : List Entity) (pn : String) :
    (concatCats (categorize_entities es pn)).Perm es := by
  induction es with
  | nil => simp [categorize_entities, concatCats]
  | cons e l ih =>
    have hP := categorize_cons pn e l .parent
    have hL := categorize_cons pn e l .likely_subsidiaries
    have hR := categorize_cons pn e l .related
    have hO := categorize_cons pn e l .other
    simp only [bucketList] at hP hL hR hO
    have ih' : ((categorize_entities l pn).parent ++
        ((categorize_entities l pn).likely_subsidiaries ++
          ((categorize_entities l pn).related ++ (categorize_entities l pn).other))).Perm l := by
      have h0 := ih
      unfold concatCats at h0
      simpa [List.append_assoc] using h0
    unfold concatCats
    rw [hP, hL, hR, hO]
    cases hb : entityBucket (pyLower pn) e
    · rw [if_pos rfl, if_neg (by decide), if_neg (by decide), if_neg (by decide)]
      simp only [List.singleton_append, List.nil_append, List.cons_append, List.append_assoc]
      exact ih'.cons e
    · rw [if_neg (by decide), if_pos rfl, if_neg (by decide), if_neg (by decide)]
      simp only [List.singleton_append, List.nil_append, List.cons_append, List.append_assoc]
      exact List.perm_middle.trans (ih'.cons e)
    · rw [if_neg (by decide), if_neg (by decide), if_pos rfl, if_neg (by decide)]
      simp only [List.singleton_append, List.nil_append, List.cons_append, List.append_assoc]
      rw [← List.append_assoc]
      exact List.perm_middle.trans (by rw [List.append_assoc]; exact ih'.cons e)
    · rw [if_neg (by decide), if_neg (by decide), if_neg (by decide), if_pos rfl]
      simp only [List.singleton_append, List.nil_append, List.cons_append, List.append_assoc]
      rw [← List.append_assoc, ← List.append_assoc]
      exact List.perm_middle.trans (by rw [List.append_assoc, List.append_assoc]; exact ih'.cons e)

end Priam

namespace Priam

/-! ### The claims -/

/-- Claim C1: for every seed company id and every registry response
(any officers list and any appointment lists, including appointments
naming the seed company), the connected-companies map returned by
`map_corporate_network` never contains the seed company's id as a key. -/
theorem seed_never_a_key (cn : String) (offs : List OfficerRec)
    (ga : String → List ApptRec) (ol : List OfficerInfo) (conn : ConnMap)
    (h : map_corporate_network cn offs ga = some (ol, conn)) :
    ∀ p ∈ conn, p.1 ≠ cn := by
  rcases map_corporate_network_eq_some.mp h with ⟨-, -, hconn⟩
  intro p hp
  have hs := lookupConn_isSome_of_mem hp
  rw [hconn] at hs
  rcases isSome_processOfficers cn ga p.1 offs [] hs with h' | h'
  · simp [lookupConn] at h'
  · exact h'.1

/-- Witness for C1 at a concrete run. -/
theorem seed_never_a_key_witness :
    (("X", ⟨some ⟨"X", "XCo", "active"⟩,
      [⟨"Jane Doe", "director", "director"⟩]⟩) : String × ConnEntry).1 ≠ "C" :=
  seed_never_a_key "C" [sampleOfficer] sampleAppts sampleOL sampleConn (by decide)
    ("X", ⟨some ⟨"X", "XCo", "active"⟩, [⟨"Jane Doe", "director", "director"⟩]⟩)
    (by decide)

/-- Claim C3: zero officers produce the `(None, None)` sentinel and the
sentinel occurs only then; a non-empty officers list always produces a
`some` result (so a mapping that found zero connections is a `some` with
an empty map, distinct from the sentinel by the `Option` constructor). -/
theorem no_officers_sentinel (cn : String) (offs : List OfficerRec)
    (ga : String → List ApptRec) :
    (map_corporate_network cn offs ga = none ↔ offs = []) ∧
    (offs ≠ [] → map_corporate_network cn offs ga =
      some (processOfficers cn ga offs [])) := by
  unfold map_corporate_network
  by_cases h : offs = [] <;> simp [h]

/-- Witness for C3 at a concrete run. -/
theorem no_officers_sentinel_witness :
    map_corporate_network "C" [sampleOfficer] sampleAppts =
      some (processOfficers "C" sampleAppts [sampleOfficer] []) :=
  (no_officers_sentinel "C" [sampleOfficer] sampleAppts).2 (by decide)

/-- Claim C4: for every run and every company id `c` present in the
connections map, the shared-officers count of `c` is monotonically
non-decreasing along the processed-officers prefixes, and at the end
equals the number of (officer, appointment) pairs across all seed
officers whose appointment names `c` (seed-company appointments are
excluded — they never name `c` since `c` is a key, hence `c ≠ cn`). -/
theorem shared_count_monotone_exact (cn : String) (offs : List OfficerRec)
    (ga : String → List ApptRec) (ol : List OfficerInfo) (conn : ConnMap) (c : String)
    (h : map_corporate_network cn offs ga = some (ol, conn))
    (hc : (lookupConn c conn).isSome = true) :
    (∀ l₁ l₂ l₃ : List OfficerRec, offs = l₁ ++ l₂ ++ l₃ →
      lenShared c (processOfficers cn ga l₁ []).2 ≤
        lenShared c (processOfficers cn ga (l₁ ++ l₂) []).2) ∧
    lenShared c conn = countRefs ga offs c := by
  rcases map_corporate_network_eq_some.mp h with ⟨-, -, hconn⟩
  have hkey : c ≠ cn ∧ c ≠ "" := by
    rw [hconn] at hc
    rcases isSome_processOfficers cn ga c offs [] hc with h' | h'
    · simp [lookupConn] at h'
    · exact h'
  constructor
  · intro l₁ l₂ l₃ hsplit
    have h2 : (processOfficers cn ga (l₁ ++ l₂) []).2 =
        (processOfficers cn ga l₂ (processOfficers cn ga l₁ []).2).2 := by
      rw [processOfficers_append cn ga l₁ l₂ []]
    rw [h2, lenShared_processOfficers cn ga c hkey.1 hkey.2 l₂]
    omega
  · rw [hconn, lenShared_processOfficers cn ga c hkey.1 hkey.2 offs]
    simp [lenShared, lookupConn]

/-- Witness for C4 at a concrete run. -/
theorem shared_count_monotone_exact_witness :
    lenShared "X" sampleConn = countRefs sampleAppts [sampleOfficer] "X" :=
  (shared_count_monotone_exact "C" [sampleOfficer] sampleAppts sampleOL sampleConn "X"
    (by decide) (by decide)).2

/-- Claim C5: the sort of connected companies by shared-officer count
descending (app.py:262-266 and 513-517 call Python's stable `sorted`) is
stable: the output is descending in the key, and on every key value the
output preserves the connections map's insertion order — no secondary
key is applied. -/
theorem sorted_conn_stable (cn : String) (offs : List OfficerRec)
    (ga : String → List ApptRec) (ol : List OfficerInfo) (conn : ConnMap)
    (h : map_corporate_network cn offs ga = some (ol, conn)) :
    List.Pairwise (fun a b => connKey b ≤ connKey a) (sorted_conn conn) ∧
    ∀ n : Nat, (sorted_conn conn).filter (fun p => connKey p == n) =
      conn.filter (fun p => connKey p == n) :=
  ⟨pairwise_sortDesc connKey conn, fun n => filter_sortDesc connKey conn n⟩

/-- Witness for C5 at a concrete run. -/
theorem sorted_conn_stable_witness :
    List.Pairwise (fun a b => connKey b ≤ connKey a) (sorted_conn sampleConn) :=
  (sorted_conn_stable "C" [sampleOfficer] sampleAppts sampleOL sampleConn (by decide)).1

end Priam

namespace Priam

theorem orElseO_none_right (a : Option α) : orElseO a none = a := by
  cases a <;> rfl

/-- Claim C6: for every company id in the connections map, the stored
company snapshot is the one written by whichever appointment naming that
company was processed last during the run — last-write-wins, not a
merge. -/
theorem company_snapshot_last_write (cn : String) (offs : List OfficerRec)
    (ga : String → List ApptRec) (ol : List OfficerInfo) (conn : ConnMap)
    (c : String) (e : ConnEntry)
    (h : map_corporate_network cn offs ga = some (ol, conn))
    (he : lookupConn c conn = some e) :
    e.company = lastOpt (snapsFor ga offs c) := by
  rcases map_corporate_network_eq_some.mp h with ⟨-, -, hconn⟩
  have hc : (lookupConn c conn).isSome = true := by rw [he]; rfl
  have hkey : c ≠ cn ∧ c ≠ "" := by
    rw [hconn] at hc
    rcases isSome_processOfficers cn ga c offs [] hc with h' | h'
    · simp [lookupConn] at h'
    · exact h'
  have h2 := companyOf_processOfficers cn ga c hkey.1 hkey.2 offs []
  have h3 : companyOf c ([] : ConnMap) = none := rfl
  rw [h3, orElseO_none_right] at h2
  have h4 : companyOf c conn = e.company := by simp [companyOf, he]
  rw [← h4, hconn, h2]

/-- Witness for C6 at a concrete run. -/
theorem company_snapshot_last_write_witness :
    (⟨some ⟨"X", "XCo", "active"⟩,
      [⟨"Jane Doe", "director", "director"⟩]⟩ : ConnEntry).company =
      lastOpt (snapsFor sampleAppts [sampleOfficer] "X") :=
  company_snapshot_last_write "C" [sampleOfficer] sampleAppts sampleOL sampleConn "X"
    ⟨some ⟨"X", "XCo", "active"⟩, [⟨"Jane Doe", "director", "director"⟩]⟩
    (by decide) (by decide)

/-- Claim C7: an officer whose self-link fails to parse to a truthy
officer id, or whose appointments fetch returns an empty list, is still
appended to the officer list (at its position, with
`other_companies = []`) and the connections map passes through its
iteration unchanged; the mapping still returns `some`, so no error is
raised. -/
theorem inert_officer (cn : String) (ga : String → List ApptRec)
    (l₁ l₂ : List OfficerRec) (o : OfficerRec) (h : noFanout ga o) :
    map_corporate_network cn (l₁ ++ o :: l₂) ga =
      some ((processOfficers cn ga l₁ []).1 ++ mkOfficerInfo o [] ::
              (processOfficers cn ga l₂ (processOfficers cn ga l₁ []).2).1,
            (processOfficers cn ga l₂ (processOfficers cn ga l₁ []).2).2) := by
  have hne : l₁ ++ o :: l₂ ≠ [] := by simp
  have hstep : ∀ conn : ConnMap, stepOfficer cn ga o conn = (mkOfficerInfo o [], conn) := by
    intro conn
    unfold stepOfficer
    rcases h with h | h
    · rw [if_neg (by simp [h])]
    · by_cases ht : pyTruthy (extract_officer_id (o.appointments_link.getD "")) = true
      · rw [if_pos ht, h]
        simp [processAppts]
      · rw [if_neg ht]
  unfold map_corporate_network
  rw [if_neg hne, processOfficers_append cn ga l₁ (o :: l₂) []]
  simp only [processOfficers, hstep]

/-- Witness for C7 at a concrete run. -/
theorem inert_officer_witness :
    map_corporate_network "C" ([] ++ sampleBadOfficer :: []) sampleAppts =
      some ((processOfficers "C" sampleAppts [] []).1 ++ mkOfficerInfo sampleBadOfficer [] ::
              (processOfficers "C" sampleAppts []
                (processOfficers "C" sampleAppts [] []).2).1,
            (processOfficers "C" sampleAppts []
              (processOfficers "C" sampleAppts [] []).2).2) :=
  inert_officer "C" sampleAppts [] [] sampleBadOfficer (Or.inl (by decide))

end Priam

namespace Priam

theorem countRefs_eq_sum (ga : String → List ApptRec) (offs : List OfficerRec) (c : String) :
    countRefs ga offs c = (offs.map fun o => officerApptCount ga o c).sum := by
  induction offs with
  | nil => simp [countRefs]
  | cons o rest ih => simp [countRefs, ih]

theorem one_le_officerApptCount (ga : String → List ApptRec) (o : OfficerRec) (c : String)
    (ht : pyTruthy (extract_officer_id (o.appointments_link.getD "")) = true)
    (ha : (ga ((extract_officer_id (o.appointments_link.getD "")).getD "")).any
      (fun a => a.company_number.getD "" = c) = true) :
    1 ≤ officerApptCount ga o c := by
  simp only [officerApptCount]
  rw [if_pos ht]
  rcases List.any_eq_true.mp ha with ⟨a, hmem, hpa⟩
  have hm : a ∈ (ga ((extract_officer_id (o.appointments_link.getD "")).getD "")).filter
      (fun a => a.company_number.getD "" = c) := List.mem_filter.mpr ⟨hmem, hpa⟩
  have hpos := List.length_pos.mpr (List.ne_nil_of_mem hm)
  omega

theorem countOfficersFor_le_countRefs (ga : String → List ApptRec)
    (offs : List OfficerRec) (c : String) :
    countOfficersFor ga offs c ≤ countRefs ga offs c := by
  induction offs with
  | nil => simp [countOfficersFor, countRefs]
  | cons o rest ih =>
    simp only [countOfficersFor, countRefs, List.filter_cons] at *
    by_cases hp : officerRefs ga o c = true
    · have hp2 : pyTruthy (extract_officer_id (o.appointments_link.getD "")) = true ∧
          (ga ((extract_officer_id (o.appointments_link.getD "")).getD "")).any
            (fun a => a.company_number.getD "" = c) = true := by
        simpa [officerRefs] using hp
      have h1 := one_le_officerApptCount ga o c hp2.1 hp2.2
      simp [hp]
      omega
    · have hp' : officerRefs ga o c = false := by simpa using hp
      simp [hp']
      omega

/-- Counterexample to claim C8 as stated: one officer whose appointment
list names company `X` twice contributes two `shared_officers` entries,
so the length is 2 while only 1 distinct officer record references `X`. -/
theorem shared_officers_exceed_distinct_officers :
    (map_corporate_network "C" [sampleOfficer] dupAppts).map (fun r => lenShared "X" r.2) =
      some 2 ∧
    countOfficersFor dupAppts [sampleOfficer] "X" = 1 := by
  constructor <;> decide

/-- Claim C8 (amended): the shared-officers length for a company `c` in
the connections map equals the number of (officer, appointment) pairs
naming `c` — an officer contributes one entry per appointment naming
`c`, hence at least one entry per officer record whose appointment list
includes `c`, but possibly more when the list names `c` repeatedly
(appointments are not deduplicated). -/
theorem shared_officers_per_appointment (cn : String) (offs : List OfficerRec)
    (ga : String → List ApptRec) (ol : List OfficerInfo) (conn : ConnMap) (c : String)
    (h : map_corporate_network cn offs ga = some (ol, conn))
    (hc : (lookupConn c conn).isSome = true) :
    lenShared c conn = (offs.map fun o => officerApptCount ga o c).sum ∧
    countOfficersFor ga offs c ≤ lenShared c conn := by
  rcases map_corporate_network_eq_some.mp h with ⟨-, -, hconn⟩
  have hkey : c ≠ cn ∧ c ≠ "" := by
    rw [hconn] at hc
    rcases isSome_processOfficers cn ga c offs [] hc with h' | h'
    · simp [lookupConn] at h'
    · exact h'
  have hlen : lenShared c conn = countRefs ga offs c := by
    rw [hconn, lenShared_processOfficers cn ga c hkey.1 hkey.2 offs]
    simp [lenShared, lookupConn]
  refine ⟨by rw [hlen, countRefs_eq_sum], ?_⟩
  rw [hlen]
  exact countOfficersFor_le_countRefs ga offs c

/-- Witness for the amended C8 at a concrete run (with the duplicated
appointment list, where the bound is strict in spirit: 1 ≤ 2). -/
theorem shared_officers_per_appointment_witness :
    lenShared "X" [("X", ⟨some ⟨"X", "XCo", "active"⟩,
        [⟨"Jane Doe", "director", "director"⟩, ⟨"Jane Doe", "director", "director"⟩]⟩)] =
      ([sampleOfficer].map fun o => officerApptCount dupAppts o "X").sum ∧
    countOfficersFor dupAppts [sampleOfficer] "X" ≤
      lenShared "X" [("X", ⟨some ⟨"X", "XCo", "active"⟩,
        [⟨"Jane Doe", "director", "director"⟩, ⟨"Jane Doe", "director", "director"⟩]⟩)] :=
  shared_officers_per_appointment "C" [sampleOfficer] dupAppts
    [⟨"Jane Doe", "director", "2020-01-01", none, some "abc",
      [⟨"X", "XCo", "director", "active"⟩, ⟨"X", "XCo", "director", "active"⟩]⟩]
    [("X", ⟨some ⟨"X", "XCo", "active"⟩,
      [⟨"Jane Doe", "director", "director"⟩, ⟨"Jane Doe", "director", "director"⟩]⟩)]
    "X" (by decide) (by decide)

end Priam

namespace Priam

/-- Counterexample to claim C10 as stated: when the seed company id is
itself the empty string, an appointment with a missing company number
resolves to `""` and is removed by the skip-the-seed filter instead of
being appended to `other_companies` — the run below produces an officer
with an empty `other_companies` list. -/
theorem empty_number_skipped_for_empty_seed :
    map_corporate_network "" [sampleLinkedOfficer] emptyNumAppts =
      some ([⟨"Unknown", "Unknown", "N/A", none, some "a", []⟩], []) := by
  decide

/-- Claim C10 (amended): provided the seed company id is nonempty, an
appointment with an empty or missing company number is appended to the
officer's `other_companies` (with empty company number) while the
connections map is left untouched; the empty string is never a key of a
returned connections map; and the total of `other_companies` lengths can
exceed the total of `shared_officers` entries. -/
theorem empty_company_number_behavior :
    (∀ (cn on_ or_ : String) (a : ApptRec) (rest : List ApptRec)
        (oc : List OtherCompany) (conn : ConnMap),
      cn ≠ "" → a.company_number.getD "" = "" →
      processAppts cn on_ or_ (a :: rest) oc conn =
        processAppts cn on_ or_ rest
          (oc ++ [⟨"", a.company_name.getD "Unknown", a.officer_role.getD "Unknown",
            a.company_status.getD "unknown"⟩]) conn) ∧
    (∀ (cn : String) (offs : List OfficerRec) (ga : String → List ApptRec)
        (ol : List OfficerInfo) (conn : ConnMap),
      map_corporate_network cn offs ga = some (ol, conn) → lookupConn "" conn = none) ∧
    (∃ (cn : String) (offs : List OfficerRec) (ga : String → List ApptRec)
        (ol : List OfficerInfo) (conn : ConnMap),
      map_corporate_network cn offs ga = some (ol, conn) ∧
      (conn.map fun p => p.2.shared_officers.length).sum <
        (ol.map fun i => i.other_companies.length).sum) := by
  refine ⟨?_, ?_, ?_⟩
  · intro cn on_ or_ a rest oc conn hcn ha
    simp only [processAppts, ha]
    rw [if_neg fun hh => hcn hh.symm]
    simp
  · intro cn offs ga ol conn h
    rcases map_corporate_network_eq_some.mp h with ⟨-, -, hconn⟩
    cases hl : lookupConn "" conn with
    | none => rfl
    | some e =>
      have hs : (lookupConn "" conn).isSome = true := by rw [hl]; rfl
      rw [hconn] at hs
      rcases isSome_processOfficers cn ga "" offs [] hs with h' | h'
      · simp [lookupConn] at h'
      · exact absurd rfl h'.2
  · exact ⟨"C", [sampleLinkedOfficer], emptyNumAppts,
      [⟨"Unknown", "Unknown", "N/A", none, some "a",
        [⟨"", "Unknown", "Unknown", "unknown"⟩]⟩], [],
      by decide, by decide⟩

/-- Witness for the amended C10 at a concrete input. -/
theorem empty_company_number_behavior_witness :
    processAppts "C" "n" "r" ([⟨none, some "NmCo", none, none⟩] : List ApptRec) [] [] =
      processAppts "C" "n" "r" []
        (([] : List OtherCompany) ++ [⟨"", "NmCo", "Unknown", "unknown"⟩]) [] :=
  empty_company_number_behavior.1 "C" "n" "r" ⟨none, some "NmCo", none, none⟩ [] [] []
    (by decide) (by decide)

/-! ### The classifier claims -/

theorem entityBucket_cases (pnl : String) (x : Entity) :
    (entityBucket pnl x = .parent ↔ isParentCond pnl x = true) ∧
    (entityBucket pnl x = .likely_subsidiaries ↔
      isParentCond pnl x = false ∧ pyIn pnl (pyLower (x.name.getD "")) = true) ∧
    (entityBucket pnl x = .related ↔ isParentCond pnl x = false ∧
      pyIn pnl (pyLower (x.name.getD "")) = false ∧ relatedTokenCond pnl x = true) ∧
    (entityBucket pnl x = .other ↔ isParentCond pnl x = false ∧
      pyIn pnl (pyLower (x.name.getD "")) = false ∧ relatedTokenCond pnl x = false) := by
  unfold entityBucket
  by_cases h1 : isParentCond pnl x = true
  · simp [h1]
  · have h1' : isParentCond pnl x = false := by simpa using h1
    by_cases h2 : pyIn pnl (pyLower (x.name.getD "")) = true
    · simp [h1', h2]
    · have h2' : pyIn pnl (pyLower (x.name.getD "")) = false := by simpa using h2
      by_cases h3 : relatedTokenCond pnl x = true
      · simp [h1', h2', h3]
      · have h3' : relatedTokenCond pnl x = false := by simpa using h3
        simp [h1', h2', h3']

/-- Counterexample to claim C2 as stated: with seed name
`"Acme Widgets Holdings"` and candidate `"Acme Europe Widgets"`, the
spec's stopword classifier answers `likely_subsidiary` (its first two
significant tokens `acme`, `widgets` are both present), but
`categorize_entities` puts the candidate in `related` — the source never
strips stopwords and requires the full seed name as a substring for
`likely_subsidiaries`. -/
theorem classifier_spec_mismatch :
    specClassify "Acme Widgets Holdings" ⟨some "Acme Europe Widgets", none⟩ =
      Bucket.likely_subsidiaries ∧
    (categorize_entities [⟨some "Acme Europe Widgets", none⟩]
      "Acme Widgets Holdings").likely_subsidiaries = [] ∧
    (categorize_entities [⟨some "Acme Europe Widgets", none⟩]
      "Acme Widgets Holdings").related = [⟨some "Acme Europe Widgets", none⟩] := by
  refine ⟨by decide, by decide, by decide⟩

/-- Claim C2 (amended): `categorize_entities` lowercases the seed name
and performs no stopword stripping.  A candidate goes to `parent` when
its lowercased name equals the seed name, or contains it and the company
type is a holding-style type; else to `likely_subsidiaries` when the
full lowercased seed name is a substring of its lowercased name; else to
`related` when any of the first two whitespace tokens of the seed name
longer than 3 characters is a substring; else to `other`. -/
theorem categorize_rule (es : List Entity) (pn : String) (x : Entity) :
    (x ∈ (categorize_entities es pn).parent ↔
      x ∈ es ∧ isParentCond (pyLower pn) x = true) ∧
    (x ∈ (categorize_entities es pn).likely_subsidiaries ↔
      x ∈ es ∧ isParentCond (pyLower pn) x = false ∧
        pyIn (pyLower pn) (pyLower (x.name.getD "")) = true) ∧
    (x ∈ (categorize_entities es pn).related ↔
      x ∈ es ∧ isParentCond (pyLower pn) x = false ∧
        pyIn (pyLower pn) (pyLower (x.name.getD "")) = false ∧
        relatedTokenCond (pyLower pn) x = true) ∧
    (x ∈ (categorize_entities es pn).other ↔
      x ∈ es ∧ isParentCond (pyLower pn) x = false ∧
        pyIn (pyLower pn) (pyLower (x.name.getD "")) = false ∧
        relatedTokenCond (pyLower pn) x = false) := by
  have hc := entityBucket_cases (pyLower pn) x
  have hP := mem_bucket_categorize es pn x .parent
  have hL := mem_bucket_categorize es pn x .likely_subsidiaries
  have hR := mem_bucket_categorize es pn x .related
  have hO := mem_bucket_categorize es pn x .other
  simp only [bucketList] at hP hL hR hO
  exact ⟨hP.trans (and_congr_right fun _ => hc.1),
         hL.trans (and_congr_right fun _ => hc.2.1),
         hR.trans (and_congr_right fun _ => hc.2.2.1),
         hO.trans (and_congr_right fun _ => hc.2.2.2)⟩

/-- Claim C9: the classifier is pure and total: the four buckets'
concatenation is a permutation of the input (so the union equals the
input, with multiplicity), every input candidate lands in exactly one
bucket, distinct buckets are disjoint, and the empty input yields
all-empty buckets.  Determinism is definitional: the embedding is a
function of its arguments. -/
theorem classify_pure_partition (es : List Entity) (pn : String) :
    (concatCats (categorize_entities es pn)).Perm es ∧
    (∀ x, x ∈ es → ∃! b : Bucket, x ∈ bucketList (categorize_entities es pn) b) ∧
    (∀ b b' : Bucket, b ≠ b' → ∀ x, x ∈ bucketList (categorize_entities es pn) b →
      x ∉ bucketList (categorize_entities es pn) b') ∧
    categorize_entities [] pn = ⟨[], [], [], []⟩ := by
  refine ⟨perm_categorize es pn, ?_, ?_, rfl⟩
  · intro x hx
    refine ⟨entityBucket (pyLower pn) x,
      (mem_bucket_categorize es pn x _).mpr ⟨hx, rfl⟩, ?_⟩
    intro b hb
    exact ((mem_bucket_categorize es pn x b).mp hb).2.symm
  · intro b b' hne x hb hb'
    have h1 := ((mem_bucket_categorize es pn x b).mp hb).2
    have h2 := ((mem_bucket_categorize es pn x b').mp hb').2
    exact hne (h1.symm.trans h2)

/-- Witness for C9 at a concrete input. -/
theorem classify_pure_partition_witness :
    ∃! b : Bucket, (⟨some "Acme Co", none⟩ : Entity) ∈
      bucketList (categorize_entities [⟨some "Acme Co", none⟩] "Acme Holdings") b :=
  (classify_pure_partition [⟨some "Acme Co", none⟩] "Acme Holdings").2.1
    ⟨some "Acme Co", none⟩ (by decide)

end Priam
